import Mathlib

/-!
# Register-level model of `gpio-driver.c`

A shallow embedding of the Raspberry Pi GPIO proc-fs driver.  The block of
memory behind `gpio_registers` is a map from word index to 32-bit word, together
with a ghost trace of every load and store the driver performs.  `unsigned int`
values are natural numbers below `2 ^ 32`.
-/

namespace GpioDriver

/-! ## Machine words -/

/-- The largest `unsigned int`. -/
def UINT_MAX : Nat := 2 ^ 32 - 1

/-- The C expression `~x`, read as an `unsigned int`. -/
def not32 (x : Nat) : Nat := (2 ^ 32 - 1) ^^^ (x % 2 ^ 32)

/-- The C expression `x << s`, read as an `unsigned int`. -/
def shl32 (x s : Nat) : Nat := (x <<< s) % 2 ^ 32

/-- The `unsigned int` that holds the bits of the `int` written through a
pointer to it (what `%d` does to `pin` and `value`). -/
def toU32 (i : Int) : Nat := (i % 2 ^ 32).toNat

/-- The values an `int` can hold. -/
def is_int (i : Int) : Prop := -2 ^ 31 ≤ i ∧ i < 2 ^ 31

instance (i : Int) : Decidable (is_int i) :=
  inferInstanceAs (Decidable (-2 ^ 31 ≤ i ∧ i < 2 ^ 31))

/-- The `int` left when a wider number is cut down to 32 bits. -/
def to_int (i : Int) : Int := (i + 2 ^ 31) % 2 ^ 32 - 2 ^ 31

/-! ## The register block -/

/-- One access to the mapped block: the word index and the value that was
loaded or stored. -/
inductive Access where
  | load (word val : Nat)
  | store (word val : Nat)
  deriving DecidableEq, Repr

/-- The word an access goes to. -/
def Access.word : Access → Nat
  | Access.load w _ => w
  | Access.store w _ => w

/-- The memory behind `gpio_registers`, indexed by 32-bit word, and the
accesses made so far (oldest first). -/
structure Gpio where
  regs : Nat → Nat
  trace : List Access

/-- The values stored to word `w` by the accesses `l`, in order. -/
def stores_to (w : Nat) : List Access → List Nat
  | [] => []
  | Access.store w1 v :: l => if w1 = w then v :: stores_to w l else stores_to w l
  | Access.load _ _ :: l => stores_to w l

/-- The accesses that took the block from `g` to `g1`. -/
def new_accesses (g g1 : Gpio) : List Access := g1.trace.drop g.trace.length

/-- Every word of the block is a 32-bit value. -/
def Gpio.WF (g : Gpio) : Prop := ∀ i, g.regs i < 2 ^ 32

/-- Load of the word at index `w`. -/
def readl (g : Gpio) (w : Nat) : Nat × Gpio :=
  (g.regs w, { g with trace := g.trace ++ [Access.load w (g.regs w)] })

/-- Store of `v` to the word at index `w`. -/
def writel (g : Gpio) (w v : Nat) : Gpio :=
  { regs := Function.update g.regs w v, trace := g.trace ++ [Access.store w v] }

/-- Word index of the set register: byte offset `0x1c` from `gpio_registers`. -/
def gpio_on_register : Nat := 0x1c / 4

/-- Word index of the clear register: byte offset `0x28` from `gpio_registers`. -/
def gpio_off_register : Nat := 0x28 / 4

/-- The local `fsel_index` of `gpio_pin_on`. -/
def fsel_index (pin : Nat) : Nat := pin / 10

/-- The local `fsel_bitpos` of `gpio_pin_on`. -/
def fsel_bitpos (pin : Nat) : Nat := pin % 10

/-- The 3-bit function-select field of `pin` as it stands in the block. -/
def fsel_field (g : Gpio) (pin : Nat) : Nat :=
  (g.regs (fsel_index pin) >>> (fsel_bitpos pin * 3)) % 8

/-- Configure `pin` as an output and set it: `gpio_pin_on`. -/
def gpio_pin_on (pin : Nat) (g : Gpio) : Gpio :=
  let gpio_fsel := fsel_index pin
  -- *gpio_fsel &= ~(7 << (fsel_bitpos*3));
  let r1 := readl g gpio_fsel
  let g1 := writel r1.2 gpio_fsel (r1.1 &&& not32 (shl32 7 (fsel_bitpos pin * 3)))
  -- *gpio_fsel |= (1 << (fsel_bitpos*3));
  let r2 := readl g1 gpio_fsel
  let g2 := writel r2.2 gpio_fsel (r2.1 ||| shl32 1 (fsel_bitpos pin * 3))
  -- *gpio_on_register |= (1 << pin);
  let r3 := readl g2 gpio_on_register
  writel r3.2 gpio_on_register (r3.1 ||| shl32 1 pin)

/-- Clear `pin`: `gpio_pin_off`. -/
def gpio_pin_off (pin : Nat) (g : Gpio) : Gpio :=
  -- *gpio_off_register |= (1<<pin);
  let r := readl g gpio_off_register
  writel r.2 gpio_off_register (r.1 ||| shl32 1 pin)

/-! ## The proc-fs handlers -/

/-- The size of the command buffer, less its terminator. -/
def MAX_USER_SIZE : Nat := 1024

/-- The bytes of the literal `"Hello!\n"`. -/
def hello : List Nat := [72, 101, 108, 108, 111, 33, 10]

/-- What one call of `gpio_read` leaves behind: the value returned, the bytes
that reached the caller's buffer, the file offset and the block. -/
structure ReadResult where
  ret : Nat
  delivered : List Nat
  off : Nat
  g : Gpio

/-- The handler `gpio_read`.  `not_copied` is what `copy_to_user` returns: the
number of bytes it could not copy. -/
def gpio_read (g : Gpio) (_size : Nat) (off : Nat) (not_copied : Nat) : ReadResult :=
  { ret := if not_copied ≠ 0 then 0 else 7
    delivered := hello.take (7 - not_copied)
    off := off
    g := g }

/-- The statement `if (size > MAX_USER_SIZE) size = MAX_USER_SIZE;`. -/
def clamp_size (size : Nat) : Nat :=
  if size > MAX_USER_SIZE then MAX_USER_SIZE else size

/-- The string `sscanf` sees in `data_buffer`: the buffer was zeroed, then
`size` bytes were copied in, so the string ends at the first zero byte. -/
def c_string (user : List Nat) (size : Nat) : List Nat :=
  (user.take size).takeWhile (fun c => c ≠ 0)

/-- The handler `gpio_write` on a write of the bytes `user`.  The parameter
`sscanf` is the library scanner for the format `"%d,%d"`: it yields the
conversions it stored, in order, and its return value is their number.
`not_copied` is what `copy_from_user` returns.  The result is the value returned
and the block afterwards. -/
def gpio_write (sscanf : List Nat → List Int) (g : Gpio) (user : List Nat)
    (not_copied : Nat) : Nat × Gpio :=
  let size := clamp_size user.length
  if not_copied ≠ 0 then (0, g)
  else
    let conv := sscanf (c_string user size)
    let pin := match conv with
      | a :: _ => toU32 a
      | [] => UINT_MAX
    let value := match conv with
      | _ :: b :: _ => toU32 b
      | _ => UINT_MAX
    if conv.length ≠ 2 then (size, g)
    else if pin > 21 ∨ pin < 0 then (size, g)
    else if value ≠ 0 ∧ value ≠ 1 then (size, g)
    else if value = 1 then (size, gpio_pin_on pin g)
    else if value = 0 then (size, gpio_pin_off pin g)
    else (size, g)

/-! ## The scanner

The kernel's `sscanf` for the format `"%d,%d"`: each `%d` skips white space,
takes an optional minus sign and then at least one decimal digit; the comma has
to follow the first number at once. -/

/-- The kernel's `isspace`. -/
def isspace (c : Nat) : Bool := (9 ≤ c && c ≤ 13) || c == 32 || c == 160

/-- The kernel's `isdigit`. -/
def isdigit (c : Nat) : Bool := 48 ≤ c && c ≤ 57

/-- Reads decimal digits onto `acc`; yields the number and the rest. -/
def scan_digits (acc : Nat) : List Nat → Nat × List Nat
  | [] => (acc, [])
  | c :: cs => if isdigit c then scan_digits (10 * acc + (c - 48)) cs else (acc, c :: cs)

/-- One `%d` conversion: the number, cut down to an `int`, and the rest of the
string, or nothing when no number starts here. -/
def scan_int (s : List Nat) : Option (Int × List Nat) :=
  match s.dropWhile isspace with
  | [] => none
  | c :: cs =>
    if c = 45 then
      match cs with
      | [] => none
      | d :: _ =>
        if isdigit d then
          let r := scan_digits 0 cs
          some (to_int (-(r.1 : Int)), r.2)
        else none
    else if isdigit c then
      let r := scan_digits 0 (c :: cs)
      some (to_int (r.1 : Int), r.2)
    else none

/-- The conversions `sscanf(data_buffer, "%d,%d", &pin, &value)` stores. -/
def sscanf_d_comma_d (s : List Nat) : List Int :=
  match scan_int s with
  | none => []
  | some (a, rest) =>
    match rest with
    | 44 :: rest1 =>
      (match scan_int rest1 with
       | none => [a]
       | some (b, _) => [a, b])
    | _ => [a]

/-- A read session: successive calls of `gpio_read` on one open file, each with
its requested size and the outcome of its `copy_to_user`; the file offset `off`
is handed from one call to the next as the handler left it. -/
def read_session (g : Gpio) (off : Nat) : List (Nat × Nat) → List ReadResult
  | [] => []
  | req :: rest =>
    let r := gpio_read g req.1 off req.2
    r :: read_session r.g r.off rest

/-! ## Loading and unloading the module -/

/-- The calls the module makes into the kernel for its two resources. -/
inductive KCall where
  | ioremap (result : Option Nat)
  | proc_create (result : Option Nat)
  | iounmap (addr : Option Nat)
  | proc_remove (entry : Option Nat)
  deriving DecidableEq, Repr

/-- The globals `gpio_registers` and `gpio_proc` (`none` is `NULL`) and the
kernel calls made so far (oldest first). -/
structure Module where
  gpio_registers : Option Nat
  gpio_proc : Option Nat
  calls : List KCall

/-- The module as loaded into memory: both globals `NULL`. -/
def Module.initial : Module := { gpio_registers := none, gpio_proc := none, calls := [] }

/-- The function `gpio_driver_init`; `ioremap` and `proc_create` are what the
two kernel calls return. -/
def gpio_driver_init (m : Module) (ioremap : Option Nat) (proc_create : Option Nat) :
    Int × Module :=
  let m1 : Module :=
    { m with gpio_registers := ioremap, calls := m.calls ++ [KCall.ioremap ioremap] }
  if m1.gpio_registers = none then (-1, m1)
  else
    let m2 : Module :=
      { m1 with gpio_proc := proc_create, calls := m1.calls ++ [KCall.proc_create proc_create] }
    if m2.gpio_proc = none then (-1, m2)
    else (0, m2)

/-- The function `gpio_driver_exit`. -/
def gpio_driver_exit (m : Module) : Module :=
  { m with calls := m.calls ++ [KCall.iounmap m.gpio_registers, KCall.proc_remove m.gpio_proc] }

/-- Loading and then unloading the module, as `module_init` and `module_exit`
arrange it: the kernel runs the exit function only for a module whose init
function returned 0; a module whose init failed is dropped without it. -/
def module_lifetime (ioremap : Option Nat) (proc_create : Option Nat) : Module :=
  let r := gpio_driver_init Module.initial ioremap proc_create
  if r.1 = 0 then gpio_driver_exit r.2 else r.2

/-- The number of successful `ioremap` calls in a call log. -/
def maps_made : List KCall → Nat
  | [] => 0
  | KCall.ioremap (some _) :: l => maps_made l + 1
  | _ :: l => maps_made l

/-- The number of `iounmap` calls in a call log. -/
def unmaps_made : List KCall → Nat
  | [] => 0
  | KCall.iounmap _ :: l => unmaps_made l + 1
  | _ :: l => unmaps_made l

/-! ## Two handlers at once

The body of `gpio_pin_on` as the sequence of its register loads and stores, so
that two calls can be interleaved access by access. -/

/-- One register access of a handler: load a word into the handler's temporary,
or store a function of the temporary to a word. -/
inductive Op where
  | ld (word : Nat)
  | st (word : Nat) (f : Nat → Nat)

/-- A running handler: its temporary and the accesses it still has to make. -/
structure Thread where
  tmp : Nat
  ops : List Op

/-- The loads and stores of `gpio_pin_on pin`, statement by statement. -/
def gpio_pin_on_ops (pin : Nat) : List Op :=
  [ -- *gpio_fsel &= ~(7 << (fsel_bitpos*3));
    Op.ld (fsel_index pin),
    Op.st (fsel_index pin) (fun t => t &&& not32 (shl32 7 (fsel_bitpos pin * 3))),
    -- *gpio_fsel |= (1 << (fsel_bitpos*3));
    Op.ld (fsel_index pin),
    Op.st (fsel_index pin) (fun t => t ||| shl32 1 (fsel_bitpos pin * 3)),
    -- *gpio_on_register |= (1 << pin);
    Op.ld gpio_on_register,
    Op.st gpio_on_register (fun t => t ||| shl32 1 pin) ]

/-- A call of `gpio_pin_on pin` about to start. -/
def pin_on_thread (pin : Nat) : Thread := { tmp := 0, ops := gpio_pin_on_ops pin }

/-- The next access of a handler, if it has one left. -/
def Thread.step (g : Gpio) (t : Thread) : Gpio × Thread :=
  match t.ops with
  | [] => (g, t)
  | Op.ld w :: rest => ((readl g w).2, { tmp := (readl g w).1, ops := rest })
  | Op.st w f :: rest => (writel g w (f t.tmp), { tmp := t.tmp, ops := rest })

/-- Two handlers run under a schedule: at `true` the first one makes its next
access, at `false` the second one. -/
def interleave (g : Gpio) (a b : Thread) : List Bool → Gpio × Thread × Thread
  | [] => (g, a, b)
  | true :: s => interleave (a.step g).1 (a.step g).2 b s
  | false :: s => interleave (b.step g).1 a (b.step g).2 s

/-- The schedule that runs the first handler to its end, then the second. -/
def first_then_second : List Bool :=
  [true, true, true, true, true, true, false, false, false, false, false, false]

/-- The schedule that runs the second handler to its end, then the first. -/
def second_then_first : List Bool :=
  [false, false, false, false, false, false, true, true, true, true, true, true]

/-- A schedule in which the second handler runs whole between the first
handler's second load of the function-select word and the store that follows. -/
def second_inside_first : List Bool :=
  [true, true, true, false, false, false, false, false, false, true, true, true]

/-- The schedule made from a sequence of whole statements: each entry lets its
handler make two accesses in a row, the load and the store of one
read-modify-write statement. -/
def atomic_schedule : List Bool → List Bool
  | [] => []
  | b :: l => b :: b :: atomic_schedule l

/-- What a call of `gpio_pin_on pin` has established once `k` of its three
statements are done: after the first the field of `pin` is 0, from the second
on it is the output encoding. -/
def progress_inv (g : Gpio) (pin k : Nat) : Prop :=
  (k = 1 → fsel_field g pin = 0) ∧ (2 ≤ k → fsel_field g pin = 1)

/-! ## Concrete blocks and writes -/

/-- The block with every word zero and no access yet. -/
def zero_block : Gpio := { regs := fun _ => 0, trace := [] }

/-- A block with bit 3 left over in the set word and in the clear word, and
every function-select field 0, the input encoding. -/
def used_block : Gpio :=
  { regs := fun i => if i = gpio_on_register ∨ i = gpio_off_register then 8 else 0
    trace := [] }

/-! ## Bit-level facts -/

theorem testBit_shl32_seven (s b : Nat) (hs : s ≤ 27) :
    (shl32 7 s).testBit b = (decide (s ≤ b) && decide (b < s + 3)) := by
  have h7 : (7 : Nat) = 2 ^ 3 - 1 := by norm_num
  unfold shl32
  rw [Nat.testBit_mod_two_pow, Nat.testBit_shiftLeft, h7, Nat.testBit_two_pow_sub_one]
  by_cases h1 : s ≤ b <;> by_cases h2 : b < s + 3 <;> by_cases h3 : b < 32 <;>
    simp [h1, h2, h3] <;> omega

theorem testBit_shl32_one (s b : Nat) (hs : s < 32) :
    (shl32 1 s).testBit b = decide (b = s) := by
  unfold shl32
  rw [Nat.testBit_mod_two_pow, Nat.one_shiftLeft, Nat.testBit_two_pow]
  by_cases h1 : s = b <;> by_cases h3 : b < 32 <;> simp [h1, h3] <;> omega

theorem shl32_lt (x s : Nat) : shl32 x s < 2 ^ 32 :=
  Nat.mod_lt _ (by norm_num)

theorem testBit_not32 (x b : Nat) :
    (not32 x).testBit b = (decide (b < 32) && !x.testBit b) := by
  unfold not32
  rw [Nat.testBit_xor, Nat.testBit_two_pow_sub_one, Nat.testBit_mod_two_pow]
  by_cases h : b < 32 <;> simp [h]

theorem testBit_of_lt_32 (w b : Nat) (hw : w < 2 ^ 32) (hb : 32 ≤ b) : w.testBit b = false :=
  Nat.testBit_lt_two_pow (lt_of_lt_of_le hw (Nat.pow_le_pow_right (by norm_num) hb))

/-! ## Effect of the pin operations on the block -/

/-- The function-select word once `gpio_pin_on` has rewritten it. -/
theorem fsel_word_after (w s : Nat) (hs : s ≤ 27) :
    ((w &&& not32 (shl32 7 s) ||| shl32 1 s) >>> s) % 8 = 1 := by
  apply Nat.eq_of_testBit_eq
  intro i
  have h8 : (8 : Nat) = 2 ^ 3 := by norm_num
  have h1 : (1 : Nat) = 2 ^ 0 := by norm_num
  rw [h8, Nat.testBit_mod_two_pow, Nat.testBit_shiftRight, Nat.testBit_or, Nat.testBit_and,
    testBit_not32, testBit_shl32_seven _ _ hs, testBit_shl32_one _ _ (by omega), h1,
    Nat.testBit_two_pow]
  by_cases h3 : i < 3
  · by_cases h0 : i = 0
    · subst h0; simp
    · have : ¬ (s + i = s) := by omega
      have h4 : s + i < s + 3 := by omega
      have h5 : ¬ (0 = i) := by omega
      simp [h3, this, h4, h5]
  · have h5 : ¬ (0 = i) := by omega
    simp [h3, h5]

theorem fsel_word_frame (w s b : Nat) (hs : s ≤ 27) (hw : w < 2 ^ 32)
    (hb : b < s ∨ s + 3 ≤ b) :
    (w &&& not32 (shl32 7 s) ||| shl32 1 s).testBit b = w.testBit b := by
  rw [Nat.testBit_or, Nat.testBit_and, testBit_not32, testBit_shl32_seven _ _ hs,
    testBit_shl32_one _ _ (by omega)]
  have h1 : ¬ (b = s) := by omega
  by_cases h32 : b < 32
  · rcases hb with hb | hb
    · have h3 : ¬ (s ≤ b) := by omega
      simp [h1, h32, h3]
    · have h4 : ¬ (b < s + 3) := by omega
      simp [h1, h32, h4]
  · simp [h1, h32, testBit_of_lt_32 w b hw (by omega)]

theorem fsel_word_lt (w s : Nat) (hw : w < 2 ^ 32) :
    (w &&& not32 (shl32 7 s) ||| shl32 1 s) < 2 ^ 32 := by
  apply Nat.or_lt_two_pow _ (shl32_lt _ _)
  exact lt_of_le_of_lt Nat.and_le_left hw

theorem fsel_word_idem (w s : Nat) :
    ((w &&& not32 (shl32 7 s) ||| shl32 1 s) &&& not32 (shl32 7 s) ||| shl32 1 s)
      = (w &&& not32 (shl32 7 s) ||| shl32 1 s) := by
  apply Nat.eq_of_testBit_eq
  intro i
  simp only [Nat.testBit_or, Nat.testBit_and]
  cases w.testBit i <;> cases (not32 (shl32 7 s)).testBit i <;>
    cases (shl32 1 s).testBit i <;> rfl

theorem or_idem_right (w m : Nat) : (w ||| m) ||| m = w ||| m := by
  apply Nat.eq_of_testBit_eq
  intro i
  simp only [Nat.testBit_or]
  cases w.testBit i <;> cases m.testBit i <;> rfl

theorem gpio_pin_on_regs (pin : Nat) (g : Gpio) (h : fsel_index pin ≠ gpio_on_register) :
    (gpio_pin_on pin g).regs =
      Function.update
        (Function.update g.regs (fsel_index pin)
          (g.regs (fsel_index pin) &&& not32 (shl32 7 (fsel_bitpos pin * 3))
            ||| shl32 1 (fsel_bitpos pin * 3)))
        gpio_on_register (g.regs gpio_on_register ||| shl32 1 pin) := by
  funext i
  simp only [gpio_pin_on, readl, writel, Function.update_apply]
  by_cases h1 : i = gpio_on_register
  · simp [h1, Ne.symm h]
  · by_cases h2 : i = fsel_index pin
    · simp [h2, h]
    · simp [h1, h2, Ne.symm h]

theorem gpio_pin_on_trace (pin : Nat) (g : Gpio) :
    ∃ l, (gpio_pin_on pin g).trace = g.trace ++ l ∧
      ∀ a ∈ l, a.word = fsel_index pin ∨ a.word = gpio_on_register := by
  simp only [gpio_pin_on, readl, writel, List.append_assoc, List.singleton_append]
  exact ⟨_, rfl, by simp [Access.word]⟩

theorem gpio_pin_off_regs (pin : Nat) (g : Gpio) :
    (gpio_pin_off pin g).regs =
      Function.update g.regs gpio_off_register (g.regs gpio_off_register ||| shl32 1 pin) := by
  simp only [gpio_pin_off, readl, writel]

theorem gpio_pin_off_trace (pin : Nat) (g : Gpio) :
    (gpio_pin_off pin g).trace = g.trace ++
      [Access.load gpio_off_register (g.regs gpio_off_register),
       Access.store gpio_off_register (g.regs gpio_off_register ||| shl32 1 pin)] := by
  simp only [gpio_pin_off, readl, writel, List.append_assoc, List.singleton_append]

theorem fsel_index_ne_on (pin : Nat) (h : pin ≤ 21) : fsel_index pin ≠ gpio_on_register := by
  unfold fsel_index gpio_on_register; omega

theorem fsel_index_ne_off (pin : Nat) (h : pin ≤ 21) : fsel_index pin ≠ gpio_off_register := by
  unfold fsel_index gpio_off_register; omega

theorem fsel_bitpos_le (pin : Nat) : fsel_bitpos pin * 3 ≤ 27 := by
  unfold fsel_bitpos; omega

/-! ## Dispatch in `gpio_write` -/

theorem toU32_natCast (p : Nat) (hp : p < 2 ^ 32) : toU32 (p : Int) = p := by
  unfold toU32; omega

theorem gpio_write_on (sscanf : List Nat → List Int) (g : Gpio) (user : List Nat) (p : Nat)
    (hp : p ≤ 21) (h : sscanf (c_string user (clamp_size user.length)) = [(p : Int), 1]) :
    gpio_write sscanf g user 0 = (clamp_size user.length, gpio_pin_on p g) := by
  have h1 : toU32 (p : Int) = p := toU32_natCast p (by omega)
  have h2 : toU32 1 = 1 := by decide
  have h3 : ¬ (21 < p) := by omega
  simp [gpio_write, h, h1, h2, h3]

theorem gpio_write_off (sscanf : List Nat → List Int) (g : Gpio) (user : List Nat) (p : Nat)
    (hp : p ≤ 21) (h : sscanf (c_string user (clamp_size user.length)) = [(p : Int), 0]) :
    gpio_write sscanf g user 0 = (clamp_size user.length, gpio_pin_off p g) := by
  have h1 : toU32 (p : Int) = p := toU32_natCast p (by omega)
  have h2 : toU32 0 = 0 := by decide
  have h3 : ¬ (21 < p) := by omega
  simp [gpio_write, h, h1, h2, h3]

theorem gpio_write_ret (sscanf : List Nat → List Int) (g : Gpio) (user : List Nat) :
    (gpio_write sscanf g user 0).1 = clamp_size user.length := by
  simp only [gpio_write, ne_eq, not_true_eq_false, if_false]
  split_ifs <;> rfl

theorem toU32_out_of_range (a : Int) (ha : is_int a) (h : a < 0 ∨ 21 < a) : 21 < toU32 a := by
  unfold is_int at ha
  unfold toU32
  omega

theorem toU32_not_bit (b : Int) (hb : is_int b) (h : b ≠ 0 ∧ b ≠ 1) :
    toU32 b ≠ 0 ∧ toU32 b ≠ 1 := by
  unfold is_int at hb
  unfold toU32
  omega

theorem new_accesses_append (g g1 : Gpio) (l : List Access) (h : g1.trace = g.trace ++ l) :
    new_accesses g g1 = l := by
  unfold new_accesses
  rw [h, List.drop_left]

theorem gpio_pin_on_field (p : Nat) (g : Gpio) (hp : p ≤ 21) :
    fsel_field (gpio_pin_on p g) p = 1 := by
  unfold fsel_field
  rw [gpio_pin_on_regs p g (fsel_index_ne_on p hp)]
  simp only [Function.update_apply, if_neg (fsel_index_ne_on p hp), if_true]
  exact fsel_word_after _ _ (fsel_bitpos_le p)

theorem gpio_pin_on_set_bit (p : Nat) (g : Gpio) (hp : p ≤ 21) :
    ((gpio_pin_on p g).regs gpio_on_register).testBit p = true := by
  rw [gpio_pin_on_regs p g (fsel_index_ne_on p hp)]
  simp only [Function.update_apply, if_true]
  rw [Nat.testBit_or, testBit_shl32_one _ _ (by omega)]
  simp

theorem gpio_pin_on_other_word (p : Nat) (g : Gpio) (hp : p ≤ 21) (i : Nat)
    (h1 : i ≠ fsel_index p) (h2 : i ≠ gpio_on_register) :
    (gpio_pin_on p g).regs i = g.regs i := by
  rw [gpio_pin_on_regs p g (fsel_index_ne_on p hp)]
  simp only [Function.update_apply, if_neg h1, if_neg h2]

theorem gpio_pin_off_other_word (p : Nat) (g : Gpio) (i : Nat) (h : i ≠ gpio_off_register) :
    (gpio_pin_off p g).regs i = g.regs i := by
  rw [gpio_pin_off_regs]
  simp only [Function.update_apply, if_neg h]

theorem testBit_or_shl32_one (w p b : Nat) (hp : p < 32) (hb : b ≠ p) :
    (w ||| shl32 1 p).testBit b = w.testBit b := by
  rw [Nat.testBit_or, testBit_shl32_one _ _ hp]
  simp [hb]

theorem off_ne_on : gpio_off_register ≠ gpio_on_register := by decide

/-- C1: for every pin `p` in `0..21` and every block, an accepted write of the
command `(p, 1)` leaves the function-select field of `p` (word `p / 10`, bit
offset `(p % 10) * 3`, so pins 0, 9, 10, 21 sit at (0,0), (0,27), (1,0), (2,3))
at the output encoding 1, leaves bit `p` of the set register at 1, and neither
changes nor accesses the clear register. -/
theorem pin_on_command_configures_and_sets (sscanf : List Nat → List Int) (g : Gpio)
    (user : List Nat) (p : Nat) (hp : p ≤ 21)
    (h : sscanf (c_string user (clamp_size user.length)) = [(p : Int), 1]) :
    ((fsel_index 0, fsel_bitpos 0 * 3) = (0, 0) ∧ (fsel_index 9, fsel_bitpos 9 * 3) = (0, 27) ∧
      (fsel_index 10, fsel_bitpos 10 * 3) = (1, 0) ∧
      (fsel_index 21, fsel_bitpos 21 * 3) = (2, 3)) ∧
    (fsel_index p = p / 10 ∧ fsel_bitpos p * 3 = p % 10 * 3 ∧
      gpio_on_register * 4 = 0x1C ∧ gpio_off_register * 4 = 0x28) ∧
    fsel_field (gpio_write sscanf g user 0).2 p = 1 ∧
    ((gpio_write sscanf g user 0).2.regs gpio_on_register).testBit p = true ∧
    (gpio_write sscanf g user 0).2.regs gpio_off_register = g.regs gpio_off_register ∧
    (∀ a ∈ new_accesses g (gpio_write sscanf g user 0).2, a.word ≠ gpio_off_register) := by
  rw [gpio_write_on sscanf g user p hp h]
  refine ⟨by decide, ⟨rfl, rfl, by decide, by decide⟩, gpio_pin_on_field p g hp,
    gpio_pin_on_set_bit p g hp, ?_, ?_⟩
  · exact gpio_pin_on_other_word p g hp _ (Ne.symm (fsel_index_ne_off p hp)) off_ne_on
  · obtain ⟨l, hl, hw⟩ := gpio_pin_on_trace p g
    rw [new_accesses_append g _ l hl]
    intro a ha
    rcases hw a ha with h1 | h1
    · rw [h1]; exact fsel_index_ne_off p hp
    · rw [h1]; exact Ne.symm off_ne_on

theorem pin_on_command_configures_and_sets_witness :
    fsel_field used_block 4 = 0 ∧
    fsel_field (gpio_write sscanf_d_comma_d used_block [52, 44, 49] 0).2 4 = 1 ∧
    ((gpio_write sscanf_d_comma_d used_block [52, 44, 49] 0).2.regs gpio_on_register).testBit 4
      = true ∧
    (gpio_write sscanf_d_comma_d used_block [52, 44, 49] 0).2.regs gpio_off_register
      = used_block.regs gpio_off_register :=
  have h := pin_on_command_configures_and_sets sscanf_d_comma_d used_block [52, 44, 49] 4
    (by decide) (by decide)
  ⟨by decide, h.2.2.1, h.2.2.2.1, h.2.2.2.2.1⟩

theorem gpio_pin_on_WF (p : Nat) (g : Gpio) (hp : p ≤ 21) (hwf : g.WF) :
    (gpio_pin_on p g).WF := by
  intro i
  rw [gpio_pin_on_regs p g (fsel_index_ne_on p hp)]
  simp only [Function.update_apply]
  split_ifs
  · exact Nat.or_lt_two_pow (hwf _) (shl32_lt _ _)
  · exact fsel_word_lt _ _ (hwf _)
  · exact hwf i

theorem gpio_pin_off_WF (p : Nat) (g : Gpio) (hwf : g.WF) : (gpio_pin_off p g).WF := by
  intro i
  rw [gpio_pin_off_regs]
  simp only [Function.update_apply]
  split_ifs
  · exact Nat.or_lt_two_pow (hwf _) (shl32_lt _ _)
  · exact hwf i

theorem gpio_pin_on_frame (p : Nat) (g : Gpio) (hp : p ≤ 21) (hwf : g.WF) (i b : Nat)
    (h1 : ¬ (i = fsel_index p ∧ fsel_bitpos p * 3 ≤ b ∧ b < fsel_bitpos p * 3 + 3))
    (h2 : ¬ (i = gpio_on_register ∧ b = p)) :
    ((gpio_pin_on p g).regs i).testBit b = (g.regs i).testBit b := by
  rw [gpio_pin_on_regs p g (fsel_index_ne_on p hp)]
  simp only [Function.update_apply]
  split_ifs with ha hb
  · rw [ha]
    exact testBit_or_shl32_one _ _ _ (by omega) (fun hbp => h2 ⟨ha, hbp⟩)
  · rw [hb]
    refine fsel_word_frame _ _ _ (fsel_bitpos_le p) (hwf _) ?_
    by_cases hlt : b < fsel_bitpos p * 3
    · exact Or.inl hlt
    · refine Or.inr ?_
      by_contra hc
      exact h1 ⟨hb, by omega, by omega⟩
  · rfl

theorem gpio_pin_off_frame (p : Nat) (g : Gpio) (hp : p ≤ 21) (i b : Nat)
    (h : ¬ (i = gpio_off_register ∧ b = p)) :
    ((gpio_pin_off p g).regs i).testBit b = (g.regs i).testBit b := by
  rw [gpio_pin_off_regs]
  simp only [Function.update_apply]
  split_ifs with ha
  · rw [ha]
    exact testBit_or_shl32_one _ _ _ (by omega) (fun hbp => h ⟨ha, hbp⟩)
  · rfl

/-- Either pin operation, as `gpio_write` picks it from the value. -/
theorem gpio_write_accept (sscanf : List Nat → List Int) (g : Gpio) (user : List Nat)
    (p v : Nat) (hp : p ≤ 21) (hv : v ≤ 1)
    (h : sscanf (c_string user (clamp_size user.length)) = [(p : Int), (v : Int)]) :
    (v = 1 ∧ (gpio_write sscanf g user 0).2 = gpio_pin_on p g) ∨
    (v = 0 ∧ (gpio_write sscanf g user 0).2 = gpio_pin_off p g) := by
  rcases Nat.le_one_iff_eq_zero_or_eq_one.mp hv with h0 | h1
  · subst h0
    right
    rw [gpio_write_off sscanf g user p hp (by simpa using h)]
    exact ⟨rfl, rfl⟩
  · subst h1
    left
    rw [gpio_write_on sscanf g user p hp (by simpa using h)]
    exact ⟨rfl, rfl⟩

/-- C2: for every pin `p` in `0..21`, value `v` in `{0,1}` and block of 32-bit
words, an accepted write of the command `(p, v)` leaves every bit of the block
as it was, apart from the three bits of the function-select field of `p` in
word `p / 10`, bit `p` of the set word and bit `p` of the clear word; so every
other word, the other nine fields and bits 30-31 of word `p / 10`, and every
other bit of the set and clear words are unchanged. -/
theorem command_frame (sscanf : List Nat → List Int) (g : Gpio) (user : List Nat)
    (p v : Nat) (hwf : g.WF) (hp : p ≤ 21) (hv : v ≤ 1)
    (h : sscanf (c_string user (clamp_size user.length)) = [(p : Int), (v : Int)]) :
    (∀ i b, ¬ (i = p / 10 ∧ p % 10 * 3 ≤ b ∧ b < p % 10 * 3 + 3) →
      ¬ (i = gpio_on_register ∧ b = p) → ¬ (i = gpio_off_register ∧ b = p) →
      ((gpio_write sscanf g user 0).2.regs i).testBit b = (g.regs i).testBit b) ∧
    (∀ i, i ≠ p / 10 → i ≠ gpio_on_register → i ≠ gpio_off_register →
      (gpio_write sscanf g user 0).2.regs i = g.regs i) := by
  rcases gpio_write_accept sscanf g user p v hp hv h with ⟨_, hw⟩ | ⟨_, hw⟩
  · rw [hw]
    exact ⟨fun i b h1 h2 _ => gpio_pin_on_frame p g hp hwf i b h1 h2,
      fun i h1 h2 _ => gpio_pin_on_other_word p g hp i h1 h2⟩
  · rw [hw]
    exact ⟨fun i b _ _ h3 => gpio_pin_off_frame p g hp i b h3,
      fun i _ _ h3 => gpio_pin_off_other_word p g i h3⟩

theorem zero_block_WF : zero_block.WF := fun _ => by
  show (0 : Nat) < 2 ^ 32
  norm_num

theorem used_block_WF : used_block.WF := fun i => by
  show (if i = gpio_on_register ∨ i = gpio_off_register then 8 else 0) < 2 ^ 32
  split_ifs <;> norm_num

theorem command_frame_witness :
    (∀ i b, ¬ (i = 4 / 10 ∧ 4 % 10 * 3 ≤ b ∧ b < 4 % 10 * 3 + 3) →
      ¬ (i = gpio_on_register ∧ b = 4) → ¬ (i = gpio_off_register ∧ b = 4) →
      ((gpio_write sscanf_d_comma_d used_block [52, 44, 49] 0).2.regs i).testBit b
        = (used_block.regs i).testBit b) ∧
    (∀ i, i ≠ 4 / 10 → i ≠ gpio_on_register → i ≠ gpio_off_register →
      (gpio_write sscanf_d_comma_d used_block [52, 44, 49] 0).2.regs i = used_block.regs i) :=
  command_frame sscanf_d_comma_d used_block [52, 44, 49] 4 1 used_block_WF (by decide)
    (by decide) (by decide)

theorem gpio_pin_on_idem (p : Nat) (g : Gpio) (hp : p ≤ 21) :
    (gpio_pin_on p (gpio_pin_on p g)).regs = (gpio_pin_on p g).regs := by
  have hne := fsel_index_ne_on p hp
  rw [gpio_pin_on_regs p (gpio_pin_on p g) hne, gpio_pin_on_regs p g hne]
  funext i
  simp only [Function.update_apply]
  by_cases h1 : i = gpio_on_register
  · simp only [h1, if_true, or_idem_right]
  · by_cases h2 : i = fsel_index p
    · simp only [h1, h2, if_neg hne, if_true, if_false, fsel_word_idem]
    · simp only [h1, h2, if_false]

theorem gpio_pin_off_idem (p : Nat) (g : Gpio) :
    (gpio_pin_off p (gpio_pin_off p g)).regs = (gpio_pin_off p g).regs := by
  rw [gpio_pin_off_regs p (gpio_pin_off p g), gpio_pin_off_regs p g]
  funext i
  simp only [Function.update_apply]
  by_cases h1 : i = gpio_off_register
  · simp only [h1, if_true, or_idem_right]
  · simp only [h1, if_false]

/-- C9: for every pin `p` in `0..21`, value `v` in `{0,1}` and block, writing the
accepted command `(p, v)` a second time leaves the registers exactly as the
first write left them. -/
theorem command_idempotent (sscanf : List Nat → List Int) (g : Gpio) (user : List Nat)
    (p v : Nat) (hp : p ≤ 21) (hv : v ≤ 1)
    (h : sscanf (c_string user (clamp_size user.length)) = [(p : Int), (v : Int)]) :
    (gpio_write sscanf (gpio_write sscanf g user 0).2 user 0).2.regs
      = (gpio_write sscanf g user 0).2.regs := by
  rcases gpio_write_accept sscanf g user p v hp hv h with ⟨_, hw⟩ | ⟨_, hw⟩
  · rcases gpio_write_accept sscanf (gpio_pin_on p g) user p v hp hv h with ⟨_, hw2⟩ | ⟨_, hw2⟩
    · rw [hw, hw2]; exact gpio_pin_on_idem p g hp
    · omega
  · rcases gpio_write_accept sscanf (gpio_pin_off p g) user p v hp hv h with ⟨_, hw2⟩ | ⟨_, hw2⟩
    · omega
    · rw [hw, hw2]; exact gpio_pin_off_idem p g

theorem command_idempotent_witness :
    (gpio_write sscanf_d_comma_d (gpio_write sscanf_d_comma_d used_block [52, 44, 49] 0).2
        [52, 44, 49] 0).2.regs
      = (gpio_write sscanf_d_comma_d used_block [52, 44, 49] 0).2.regs :=
  command_idempotent sscanf_d_comma_d used_block [52, 44, 49] 4 1 (by decide) (by decide)
    (by decide)

/-- C7 (as the code has it): a write of `n` bytes that are copied in reports
`n` when `n ≤ 1024` and 1024 when `n > 1024`, whatever the scanner made of the
text: accepted, malformed, or out of range. -/
theorem write_reports_clamped_size (sscanf : List Nat → List Int) (g : Gpio)
    (user : List Nat) :
    (gpio_write sscanf g user 0).1 = min user.length 1024 := by
  rw [gpio_write_ret]
  unfold clamp_size MAX_USER_SIZE
  split_ifs <;> omega

/-- C7, refuted as stated: a write of 1025 bytes, all copied in, reports 1024. -/
theorem write_1025_reports_1024 :
    (gpio_write sscanf_d_comma_d zero_block (List.replicate 1025 48) 0).1 = 1024 ∧
    (gpio_write sscanf_d_comma_d zero_block (List.replicate 1025 48) 0).1
      ≠ (List.replicate 1025 48).length := by
  have h : (gpio_write sscanf_d_comma_d zero_block (List.replicate 1025 48) 0).1 = 1024 := by
    rw [gpio_write_ret, List.length_replicate]
    decide
  rw [h, List.length_replicate]
  exact ⟨rfl, by decide⟩

theorem shl32_one_eq (p : Nat) (hp : p < 32) : shl32 1 p = 1 <<< p := by
  unfold shl32
  rw [Nat.one_shiftLeft]
  exact Nat.mod_eq_of_lt (Nat.pow_lt_pow_right (by norm_num) hp)

theorem gpio_pin_on_new_accesses (p : Nat) (g : Gpio) (h : fsel_index p ≠ gpio_on_register) :
    new_accesses g (gpio_pin_on p g) =
      [Access.load (fsel_index p) (g.regs (fsel_index p)),
       Access.store (fsel_index p)
        (g.regs (fsel_index p) &&& not32 (shl32 7 (fsel_bitpos p * 3))),
       Access.load (fsel_index p)
        (g.regs (fsel_index p) &&& not32 (shl32 7 (fsel_bitpos p * 3))),
       Access.store (fsel_index p)
        (g.regs (fsel_index p) &&& not32 (shl32 7 (fsel_bitpos p * 3))
          ||| shl32 1 (fsel_bitpos p * 3)),
       Access.load gpio_on_register (g.regs gpio_on_register),
       Access.store gpio_on_register (g.regs gpio_on_register ||| shl32 1 p)] := by
  apply new_accesses_append
  simp [gpio_pin_on, readl, writel, Ne.symm h]

theorem gpio_pin_off_new_accesses (p : Nat) (g : Gpio) :
    new_accesses g (gpio_pin_off p g) =
      [Access.load gpio_off_register (g.regs gpio_off_register),
       Access.store gpio_off_register (g.regs gpio_off_register ||| shl32 1 p)] :=
  new_accesses_append _ _ _ (gpio_pin_off_trace p g)

theorem or_eq_mask_of_no_other_bit (w p : Nat) (h : ∀ b, b ≠ p → w.testBit b = false) :
    w ||| 1 <<< p = 1 <<< p := by
  apply Nat.eq_of_testBit_eq
  intro i
  rw [Nat.testBit_or, Nat.one_shiftLeft, Nat.testBit_two_pow]
  by_cases hi : p = i
  · simp [hi]
  · simp [hi, h i (Ne.symm hi)]

/-- C5 (as the code has it): for every pin `p` in `0..21` and every block,
`gpio_pin_on` makes one store to the set register and the word it stores is the
word it loaded from there OR-ed with `1 << p`; `gpio_pin_off` does the same to
the clear register.  The stored word is exactly `1 << p` when the loaded word
has no bit set other than bit `p`. -/
theorem pin_ops_store_loaded_or_mask (p : Nat) (g : Gpio) (hp : p ≤ 21) :
    stores_to gpio_on_register (new_accesses g (gpio_pin_on p g))
      = [g.regs gpio_on_register ||| 1 <<< p] ∧
    stores_to gpio_off_register (new_accesses g (gpio_pin_off p g))
      = [g.regs gpio_off_register ||| 1 <<< p] ∧
    ((∀ b, b ≠ p → (g.regs gpio_on_register).testBit b = false) →
      stores_to gpio_on_register (new_accesses g (gpio_pin_on p g)) = [1 <<< p]) ∧
    ((∀ b, b ≠ p → (g.regs gpio_off_register).testBit b = false) →
      stores_to gpio_off_register (new_accesses g (gpio_pin_off p g)) = [1 <<< p]) := by
  have hne := fsel_index_ne_on p hp
  have h1 : stores_to gpio_on_register (new_accesses g (gpio_pin_on p g))
      = [g.regs gpio_on_register ||| 1 <<< p] := by
    rw [gpio_pin_on_new_accesses p g hne, ← shl32_one_eq p (by omega)]
    simp [stores_to, hne]
  have h2 : stores_to gpio_off_register (new_accesses g (gpio_pin_off p g))
      = [g.regs gpio_off_register ||| 1 <<< p] := by
    rw [gpio_pin_off_new_accesses p g, ← shl32_one_eq p (by omega)]
    simp [stores_to]
  refine ⟨h1, h2, fun h => ?_, fun h => ?_⟩
  · rw [h1, or_eq_mask_of_no_other_bit _ _ h]
  · rw [h2, or_eq_mask_of_no_other_bit _ _ h]

theorem pin_ops_store_loaded_or_mask_witness :
    stores_to gpio_on_register (new_accesses used_block (gpio_pin_on 4 used_block))
      = [used_block.regs gpio_on_register ||| 1 <<< 4] ∧
    stores_to gpio_off_register (new_accesses used_block (gpio_pin_off 4 used_block))
      = [used_block.regs gpio_off_register ||| 1 <<< 4] :=
  have h := pin_ops_store_loaded_or_mask 4 used_block (by decide)
  ⟨h.1, h.2.1⟩

/-- C5, refuted as stated: with bit 3 left in the set word by an earlier command,
`gpio_pin_on 4` stores 24, which is not `1 << 4`; bit 3 is written again.  The
same holds for `gpio_pin_off 4` and the clear word. -/
theorem pin_on_stores_leftover_bit :
    stores_to gpio_on_register (new_accesses used_block (gpio_pin_on 4 used_block)) = [24] ∧
    stores_to gpio_off_register (new_accesses used_block (gpio_pin_off 4 used_block)) = [24] ∧
    (24 : Nat) ≠ 1 <<< 4 ∧ Nat.testBit 24 3 = true := by
  decide

/-- C4 (as the code has it): for every pin `p` in `0..21` and every block, an
accepted write of the command `(p, 0)` sets bit `p` of the clear register,
leaves the set register untouched and accesses no word but the clear register;
the function-select field of `p` stays what it was, so it encodes output after
the write exactly when it did before. -/
theorem pin_off_command_keeps_field (sscanf : List Nat → List Int) (g : Gpio)
    (user : List Nat) (p : Nat) (hp : p ≤ 21)
    (h : sscanf (c_string user (clamp_size user.length)) = [(p : Int), 0]) :
    fsel_field (gpio_write sscanf g user 0).2 p = fsel_field g p ∧
    (fsel_field (gpio_write sscanf g user 0).2 p = 1 ↔ fsel_field g p = 1) ∧
    ((gpio_write sscanf g user 0).2.regs gpio_off_register).testBit p = true ∧
    (gpio_write sscanf g user 0).2.regs gpio_on_register = g.regs gpio_on_register ∧
    (∀ a ∈ new_accesses g (gpio_write sscanf g user 0).2, a.word = gpio_off_register) := by
  rw [gpio_write_off sscanf g user p hp h]
  have hf : fsel_field (gpio_pin_off p g) p = fsel_field g p := by
    unfold fsel_field
    rw [gpio_pin_off_other_word p g _ (fsel_index_ne_off p hp)]
  refine ⟨hf, by rw [hf], ?_, ?_, ?_⟩
  · rw [gpio_pin_off_regs]
    simp only [Function.update_apply, if_true]
    rw [Nat.testBit_or, testBit_shl32_one _ _ (by omega)]
    simp
  · exact gpio_pin_off_other_word p g _ (Ne.symm off_ne_on)
  · rw [gpio_pin_off_new_accesses]
    intro a ha
    simp only [List.mem_cons, List.mem_singleton, List.not_mem_nil, or_false] at ha
    rcases ha with ha | ha <;> rw [ha] <;> rfl

theorem pin_off_command_keeps_field_witness :
    fsel_field (gpio_write sscanf_d_comma_d used_block [52, 44, 48] 0).2 4
      = fsel_field used_block 4 ∧
    ((gpio_write sscanf_d_comma_d used_block [52, 44, 48] 0).2.regs gpio_off_register).testBit 4
      = true :=
  have h := pin_off_command_keeps_field sscanf_d_comma_d used_block [52, 44, 48] 4
    (by decide) (by decide)
  ⟨h.1, h.2.2.1⟩

/-- C4, refuted as stated: on a block where pin 4 is an input (field 0), the
accepted write `"4,0"` leaves the field at 0, not at the output encoding 1. -/
theorem pin_off_command_leaves_input :
    fsel_field used_block 4 = 0 ∧
    fsel_field (gpio_write sscanf_d_comma_d used_block [52, 44, 48] 0).2 4 = 0 ∧
    fsel_field (gpio_write sscanf_d_comma_d used_block [52, 44, 48] 0).2 4 ≠ 1 := by
  decide

/-! ## The read handler -/

theorem read_session_ret (g : Gpio) (off : Nat) (reqs : List (Nat × Nat))
    (h : ∀ r ∈ reqs, r.2 = 0) :
    ∀ res ∈ read_session g off reqs,
      res.ret = 7 ∧ res.delivered = hello ∧ res.off = off ∧ res.g = g := by
  induction reqs with
  | nil => intro res hres; simp [read_session] at hres
  | cons req rest ih =>
    intro res hres
    have h0 : req.2 = 0 := h req (List.mem_cons_self _ _)
    simp only [read_session, List.mem_cons] at hres
    rcases hres with hres | hres
    · subst hres
      simp [gpio_read, h0, hello]
    · exact ih (fun r hr => h r (List.mem_cons_of_mem _ hr)) res hres

/-- C8 (as the code has it): every `gpio_read` of a session whose copy to the
caller succeeds, the first one and every later one alike, delivers exactly the
7 bytes `"Hello!\n"` and returns 7, whatever the offset, the requested size and
the block (so whatever was written before); it leaves the offset and the block
as they were, and no such read returns 0. -/
theorem every_read_returns_greeting (g : Gpio) (off : Nat) (reqs : List (Nat × Nat))
    (h : ∀ r ∈ reqs, r.2 = 0) :
    (∀ size, (gpio_read g size off 0).ret = 7 ∧
      (gpio_read g size off 0).delivered = [72, 101, 108, 108, 111, 33, 10] ∧
      (gpio_read g size off 0).off = off ∧ (gpio_read g size off 0).g = g) ∧
    (∀ res ∈ read_session g off reqs,
      res.ret = 7 ∧ res.delivered = [72, 101, 108, 108, 111, 33, 10] ∧ res.ret ≠ 0) := by
  refine ⟨fun size => ⟨rfl, rfl, rfl, rfl⟩, fun res hres => ?_⟩
  obtain ⟨h1, h2, _, _⟩ := read_session_ret g off reqs h res hres
  exact ⟨h1, h2, by rw [h1]; decide⟩

theorem every_read_returns_greeting_witness :
    ((gpio_read used_block 3 0 0).ret = 7 ∧
      (gpio_read used_block 3 0 0).delivered = [72, 101, 108, 108, 111, 33, 10]) ∧
    (∀ res ∈ read_session used_block 0 [(100, 0), (100, 0), (3, 0)],
      res.ret = 7 ∧ res.delivered = [72, 101, 108, 108, 111, 33, 10] ∧ res.ret ≠ 0) :=
  have h := every_read_returns_greeting used_block 0 [(100, 0), (100, 0), (3, 0)] (by decide)
  ⟨⟨(h.1 3).1, (h.1 3).2.1⟩, h.2⟩

/-- C8, refuted as stated: in a session of two reads the second read returns 7
again, not 0. -/
theorem second_read_returns_seven :
    (read_session zero_block 0 [(100, 0), (100, 0)]).map ReadResult.ret = [7, 7] ∧
    (read_session zero_block 0 [(100, 0), (100, 0)]).map ReadResult.ret ≠ [7, 0] := by
  decide

/-! ## Loading and unloading -/

/-- C10, the code at the failing input: when `ioremap` succeeds and
`proc_create` fails, `gpio_driver_init` returns -1 with `gpio_registers` still
holding the mapping, and over the module's whole lifetime that one mapping is
never unmapped. -/
theorem init_failure_keeps_mapping :
    (gpio_driver_init Module.initial (some 4096) none).1 = -1 ∧
    (gpio_driver_init Module.initial (some 4096) none).2.gpio_registers = some 4096 ∧
    (gpio_driver_init Module.initial (some 4096) none).2.calls
      = [KCall.ioremap (some 4096), KCall.proc_create none] ∧
    maps_made (module_lifetime (some 4096) none).calls = 1 ∧
    unmaps_made (module_lifetime (some 4096) none).calls = 0 := by
  decide

/-- The other three outcomes of start-up do what the lifecycle asks: with both
calls succeeding the one mapping is unmapped once at exit, and with `ioremap`
failing nothing is mapped and nothing unmapped. -/
theorem lifetime_balanced_elsewhere (addr entry : Nat) (pc : Option Nat) :
    (gpio_driver_init Module.initial (some addr) (some entry)).1 = 0 ∧
    maps_made (module_lifetime (some addr) (some entry)).calls = 1 ∧
    unmaps_made (module_lifetime (some addr) (some entry)).calls = 1 ∧
    (gpio_driver_init Module.initial none pc).1 = -1 ∧
    maps_made (module_lifetime none pc).calls = 0 ∧
    unmaps_made (module_lifetime none pc).calls = 0 := by
  refine ⟨rfl, rfl, rfl, rfl, rfl, rfl⟩

/-! ## Two handlers at once -/

theorem field_eq_of_bits (w1 w2 s : Nat)
    (h : ∀ i, i < 3 → w1.testBit (s + i) = w2.testBit (s + i)) :
    (w1 >>> s) % 8 = (w2 >>> s) % 8 := by
  have h8 : (8 : Nat) = 2 ^ 3 := by norm_num
  apply Nat.eq_of_testBit_eq
  intro i
  rw [h8, Nat.testBit_mod_two_pow, Nat.testBit_mod_two_pow, Nat.testBit_shiftRight,
    Nat.testBit_shiftRight]
  by_cases hi : i < 3
  · simp [hi, h i hi]
  · simp [hi]

theorem field_cleared (w s : Nat) (hs : s ≤ 27) :
    ((w &&& not32 (shl32 7 s)) >>> s) % 8 = 0 := by
  apply Nat.eq_of_testBit_eq
  intro i
  have h8 : (8 : Nat) = 2 ^ 3 := by norm_num
  rw [h8, Nat.testBit_mod_two_pow, Nat.testBit_shiftRight, Nat.testBit_and,
    testBit_not32, testBit_shl32_seven _ _ hs, Nat.zero_testBit]
  by_cases h3 : i < 3
  · have h4 : s + i < s + 3 := by omega
    simp [h3, h4]
  · simp [h3]

theorem field_set (w s : Nat) (hs : s ≤ 27) (h : (w >>> s) % 8 = 0) :
    ((w ||| shl32 1 s) >>> s) % 8 = 1 := by
  have h8 : (8 : Nat) = 2 ^ 3 := by norm_num
  have h1 : (1 : Nat) = 2 ^ 0 := by norm_num
  have hb : ∀ i, i < 3 → w.testBit (s + i) = false := by
    intro i hi
    have := congrArg (fun x => Nat.testBit x i) h
    simp only [h8, Nat.testBit_mod_two_pow, Nat.testBit_shiftRight, Nat.zero_testBit] at this
    simpa [hi] using this
  apply Nat.eq_of_testBit_eq
  intro i
  rw [h8, Nat.testBit_mod_two_pow, Nat.testBit_shiftRight, Nat.testBit_or,
    testBit_shl32_one _ _ (by omega), h1, Nat.testBit_two_pow]
  by_cases h3 : i < 3
  · by_cases h0 : i = 0
    · subst h0; simp
    · have h5 : ¬ (0 = i) := by omega
      simp [h3, hb i h3, h0, h5]
  · have h5 : ¬ (0 = i) := by omega
    simp [h3, h5]


theorem field_and_other (w s t : Nat) (hs : s ≤ 27) (ht : t ≤ 27) (h : s + 3 ≤ t ∨ t + 3 ≤ s) :
    ((w &&& not32 (shl32 7 t)) >>> s) % 8 = (w >>> s) % 8 := by
  apply field_eq_of_bits
  intro i hi
  rw [Nat.testBit_and, testBit_not32, testBit_shl32_seven _ _ ht]
  have h32 : s + i < 32 := by omega
  rcases h with h | h
  · have h1 : ¬ (t ≤ s + i) := by omega
    simp [h32, h1]
  · have h1 : ¬ (s + i < t + 3) := by omega
    simp [h32, h1]

theorem field_or_other (w s t : Nat) (ht : t ≤ 27) (h : s + 3 ≤ t ∨ t + 3 ≤ s) :
    ((w ||| shl32 1 t) >>> s) % 8 = (w >>> s) % 8 := by
  apply field_eq_of_bits
  intro i hi
  exact testBit_or_shl32_one _ _ _ (by omega) (by omega)

theorem bitpos_apart (p q : Nat) (hpq : p ≠ q) (hw : fsel_index q = fsel_index p) :
    fsel_bitpos q * 3 + 3 ≤ fsel_bitpos p * 3 ∨ fsel_bitpos p * 3 + 3 ≤ fsel_bitpos q * 3 := by
  unfold fsel_index at hw
  unfold fsel_bitpos
  omega

theorem drop_pin_on_ops_done (p k : Nat) (hk : 3 ≤ k) :
    (gpio_pin_on_ops p).drop (2 * k) = [] :=
  List.drop_eq_nil_of_le (by
    show 6 ≤ 2 * k
    omega)

/-- One statement of a call of `gpio_pin_on p`, its load and store run
together: the call moves on by one statement, establishes what that statement
is for, and leaves every other pin's field alone. -/
theorem pin_on_statement (p : Nat) (hp : p ≤ 21) (g : Gpio) (a : Thread) (k : Nat)
    (ha : a.ops = (gpio_pin_on_ops p).drop (2 * k)) (hinv : progress_inv g p k) :
    ((a.step g).2.step (a.step g).1).2.ops = (gpio_pin_on_ops p).drop (2 * (k + 1)) ∧
    progress_inv ((a.step g).2.step (a.step g).1).1 p (k + 1) ∧
    ∀ q, q ≤ 21 → q ≠ p →
      fsel_field ((a.step g).2.step (a.step g).1).1 q = fsel_field g q := by
  obtain ⟨tmp, ops⟩ := a
  simp only at ha
  have hs := fsel_bitpos_le p
  match k with
  | 0 =>
    subst ha
    refine ⟨rfl, ⟨fun _ => ?_, fun h => absurd h (by omega)⟩, fun q hq hqp => ?_⟩
    · show ((Function.update g.regs (fsel_index p) _) (fsel_index p) >>> _) % 8 = 0
      rw [Function.update_same]
      exact field_cleared _ _ hs
    · show ((Function.update g.regs (fsel_index p) _) (fsel_index q) >>> _) % 8
        = (g.regs (fsel_index q) >>> _) % 8
      rw [Function.update_apply]
      split_ifs with hw
      · rw [hw]
        exact field_and_other _ _ _ (fsel_bitpos_le q) hs (bitpos_apart p q (Ne.symm hqp) hw)
      · rfl
  | 1 =>
    subst ha
    refine ⟨rfl, ⟨fun h => absurd h (by omega), fun _ => ?_⟩, fun q hq hqp => ?_⟩
    · show ((Function.update g.regs (fsel_index p) _) (fsel_index p) >>> _) % 8 = 1
      rw [Function.update_same]
      exact field_set _ _ hs (hinv.1 rfl)
    · show ((Function.update g.regs (fsel_index p) _) (fsel_index q) >>> _) % 8
        = (g.regs (fsel_index q) >>> _) % 8
      rw [Function.update_apply]
      split_ifs with hw
      · rw [hw]
        exact field_or_other _ _ _ hs (bitpos_apart p q (Ne.symm hqp) hw)
      · rfl
  | 2 =>
    subst ha
    have hframe : ∀ q, q ≤ 21 →
        ((Function.update g.regs gpio_on_register (g.regs gpio_on_register ||| shl32 1 p))
          (fsel_index q) >>> (fsel_bitpos q * 3)) % 8 = fsel_field g q := by
      intro q hq
      rw [Function.update_noteq (fsel_index_ne_on q hq)]
      rfl
    refine ⟨rfl, ⟨fun h => absurd h (by omega), fun _ => ?_⟩, fun q hq _ => hframe q hq⟩
    exact (hframe p hp).trans (hinv.2 (by omega))
  | n + 3 =>
    rw [drop_pin_on_ops_done p (n + 3) (by omega)] at ha
    subst ha
    refine ⟨(drop_pin_on_ops_done p (n + 3 + 1) (by omega)).symm,
      ⟨fun h => absurd h (by omega), fun _ => ?_⟩, fun q _ _ => rfl⟩
    exact hinv.2 (by omega)


theorem progress_inv_congr (g g1 : Gpio) (p k : Nat) (h : fsel_field g1 p = fsel_field g p)
    (hinv : progress_inv g p k) : progress_inv g1 p k :=
  ⟨fun hk => h.trans (hinv.1 hk), fun hk => h.trans (hinv.2 hk)⟩

theorem pin_on_ops_done (p k : Nat) (h : (gpio_pin_on_ops p).drop (2 * k) = []) : 3 ≤ k := by
  have h6 := List.drop_eq_nil_iff.mp h
  have : (gpio_pin_on_ops p).length = 6 := rfl
  omega

theorem atomic_interleave_inv (p q : Nat) (hp : p ≤ 21) (hq : q ≤ 21) (hpq : p ≠ q) :
    ∀ (l : List Bool) (g : Gpio) (a b : Thread) (ka kb : Nat),
      a.ops = (gpio_pin_on_ops p).drop (2 * ka) → b.ops = (gpio_pin_on_ops q).drop (2 * kb) →
      progress_inv g p ka → progress_inv g q kb →
      (interleave g a b (atomic_schedule l)).2.1.ops = [] →
      (interleave g a b (atomic_schedule l)).2.2.ops = [] →
      fsel_field (interleave g a b (atomic_schedule l)).1 p = 1 ∧
      fsel_field (interleave g a b (atomic_schedule l)).1 q = 1 := by
  intro l
  induction l with
  | nil =>
    intro g a b ka kb ha hb hia hib hda hdb
    have h1 : a.ops = [] := hda
    have h2 : b.ops = [] := hdb
    rw [ha] at h1
    rw [hb] at h2
    exact ⟨hia.2 (by have := pin_on_ops_done p ka h1; omega),
      hib.2 (by have := pin_on_ops_done q kb h2; omega)⟩
  | cons c l ih =>
    intro g a b ka kb ha hb hia hib
    cases c with
    | true =>
      obtain ⟨h1, h2, h3⟩ := pin_on_statement p hp g a ka ha hia
      exact ih _ _ b (ka + 1) kb h1 hb h2 (progress_inv_congr _ _ q kb (h3 q hq (Ne.symm hpq)) hib)
    | false =>
      obtain ⟨h1, h2, h3⟩ := pin_on_statement q hq g b kb hb hib
      exact ih _ a _ ka (kb + 1) ha h1 (progress_inv_congr _ _ p ka (h3 p hp hpq) hia) h2

end GpioDriver
